import Mathlib

/-!
rl-terrain: the tile map, its random fills, normalisation and the biome classifier.

A shallow embedding of `main.go`.

* `Float64` stands for Go's `float64`.  Finite values are carried as exact
  rationals (the two zeros are one value), the three special values `+Inf`,
  `-Inf` and `NaN` are explicit, and the arithmetic follows IEEE 754 on them, so
  that a division by zero is visible in the model as the `NaN` or infinity that
  the Go program stores.
* The arithmetic of finite values is exact: a finite sum, difference, product
  or quotient is the rational result, where Go rounds it to the nearest
  `float64` and gives an infinity when it exceeds `math.MaxFloat64`.  A
  statement that would hold by exactness alone is therefore stated with the
  weak order that rounding keeps, and under the bound `maxFloat64` on the
  operands that keeps every intermediate result within range; the bound is
  then part of the conclusion as well.
* `TileMap` stands for the package variable `tileMap [1200][675]float64`.
* The package variables `numTilesX` and `numTilesY` are the parameters `nx` and
  `ny` of every operation; their values in the program are `numTilesX` and
  `numTilesY` below.
* Values that come from outside the file (the raylib and `math/rand` draws, the
  Lehmer generator, the Perlin noise generator) are inputs of the operations.
-/

namespace RlTerrain

/-! ## Go's `float64` -/

/-- Go `float64`: a finite value, or one of the three IEEE special values. -/
inductive Float64 where
  | fin (q : ℚ)
  | posInf
  | negInf
  | nan
  deriving DecidableEq, Repr

namespace Float64

/-- Go `x + y`.  A finite sum is exact: it is not rounded and does not overflow. -/
def add : Float64 → Float64 → Float64
  | nan, _ => nan
  | _, nan => nan
  | fin a, fin b => fin (a + b)
  | fin _, posInf => posInf
  | fin _, negInf => negInf
  | posInf, negInf => nan
  | posInf, _ => posInf
  | negInf, posInf => nan
  | negInf, _ => negInf

/-- Go unary `-x`. -/
def neg : Float64 → Float64
  | fin a => fin (-a)
  | posInf => negInf
  | negInf => posInf
  | nan => nan

/-- Go `x - y`. -/
def sub (x y : Float64) : Float64 := add x (neg y)

/-- The infinity whose sign is the sign of `s` when `s` is positive or zero,
and the other one otherwise. -/
def infOfSign (s : ℚ) : Float64 := if 0 ≤ s then posInf else negInf

/-- Go `x * y`.  A finite product is exact: it is not rounded and does not
overflow. -/
def mul : Float64 → Float64 → Float64
  | nan, _ => nan
  | _, nan => nan
  | fin a, fin b => fin (a * b)
  | fin a, posInf => if a = 0 then nan else infOfSign a
  | fin a, negInf => if a = 0 then nan else infOfSign (-a)
  | posInf, fin b => if b = 0 then nan else infOfSign b
  | negInf, fin b => if b = 0 then nan else infOfSign (-b)
  | posInf, posInf => posInf
  | posInf, negInf => negInf
  | negInf, posInf => negInf
  | negInf, negInf => posInf

/-- Go `x / y` on `float64`: no run-time failure, a zero divisor gives `NaN`
(for `0 / 0`) or an infinity; the zero of the model is the positive zero, so an
infinity divided by it keeps its sign.  A finite quotient by a non-zero divisor
is exact: it is not rounded. -/
def div : Float64 → Float64 → Float64
  | nan, _ => nan
  | _, nan => nan
  | fin a, fin b => if b = 0 then (if a = 0 then nan else infOfSign a) else fin (a / b)
  | fin _, posInf => fin 0
  | fin _, negInf => fin 0
  | posInf, fin b => infOfSign b
  | negInf, fin b => if 0 ≤ b then negInf else posInf
  | posInf, posInf => nan
  | posInf, negInf => nan
  | negInf, posInf => nan
  | negInf, negInf => nan

/-- Go `x < y` on `float64`: false as soon as one side is `NaN`. -/
def lt : Float64 → Float64 → Bool
  | nan, _ => false
  | _, nan => false
  | fin a, fin b => decide (a < b)
  | fin _, posInf => true
  | fin _, negInf => false
  | posInf, _ => false
  | negInf, negInf => false
  | negInf, _ => true

/-- Go `x <= y` on `float64`: false as soon as one side is `NaN`. -/
def le : Float64 → Float64 → Bool
  | nan, _ => false
  | _, nan => false
  | fin a, fin b => decide (a ≤ b)
  | fin _, posInf => true
  | fin _, negInf => false
  | posInf, posInf => true
  | posInf, _ => false
  | negInf, _ => true

end Float64

/-- Go `math.MaxFloat64`, the largest finite `float64`: `2^1023 * (2 - 2^-52)`. -/
def maxFloat64 : ℚ := (2 ^ 53 - 1) * 2 ^ 971

/-- The rational `q` is within the range of the finite `float64` values. -/
def InFloat64Range (q : ℚ) : Prop := -maxFloat64 ≤ q ∧ q ≤ maxFloat64

namespace math

open Float64

/-- Go `math.Min(x, y)`: `-Inf` if either is `-Inf`, else `NaN` if either is
`NaN`, else `x` if `x < y`, else `y`. -/
def Min (x y : Float64) : Float64 :=
  if x = negInf ∨ y = negInf then negInf
  else if x = nan ∨ y = nan then nan
  else if lt x y then x
  else y

/-- Go `math.Max(x, y)`: `+Inf` if either is `+Inf`, else `NaN` if either is
`NaN`, else `x` if `x > y`, else `y`. -/
def Max (x y : Float64) : Float64 :=
  if x = posInf ∨ y = posInf then posInf
  else if x = nan ∨ y = nan then nan
  else if lt y x then x
  else y

end math

namespace Float64

/-- Go `float64(k)` for an integer `k`. -/
def ofInt (k : Int) : Float64 := fin (k : ℚ)

end Float64

open Float64

/-! ## Package variables -/

def tileSizeX : Nat := 1
def tileSizeY : Nat := 1
def windowWidth : Nat := 1200
def windowHeight : Nat := 675
def numTilesX : Nat := windowWidth / tileSizeX
def numTilesY : Nat := windowHeight / tileSizeY

/-- The package variable `tileMap`, read as `tileMap[i][j]`. -/
abbrev TileMap := Nat → Nat → Float64

/-- The assignment `tileMap[i][j] = v`. -/
def TileMap.set (t : TileMap) (i j : Nat) (v : Float64) : TileMap :=
  fun a b => if a = i ∧ b = j then v else t a b

/-- The loop nest `for i := 0; i < nx; i++ { for j := 0; j < ny; j++ { body } }`
run on a state `s`. -/
def forCells {σ : Type} (nx ny : Nat) (body : Nat → Nat → σ → σ) (s : σ) : σ :=
  (List.range nx).foldl (fun s i => (List.range ny).foldl (fun s j => body i j s) s) s

/-- The cells `(i, j)` in the order in which the loop nest visits them. -/
def cells (nx ny : Nat) : List (Nat × Nat) :=
  (List.range nx).flatMap (fun i => (List.range ny).map (fun j => (i, j)))

/-! ## Resetting and normalising the tile map -/

/-- The function `initTileMap`. -/
def initTileMap (nx ny : Nat) (t : TileMap) : TileMap :=
  forCells nx ny (fun i j t => t.set i j (fin (1 / 2))) t

/-- The first loop nest of `normalizeTileMap`: the running pair
`(minValue, maxValue)`, started at `(1.0, 0.0)`. -/
def normalizeScan (nx ny : Nat) (t : TileMap) : Float64 × Float64 :=
  forCells nx ny (fun i j mm => (math.Min mm.1 (t i j), math.Max mm.2 (t i j))) (fin 1, fin 0)

/-- The function `normalizeTileMap`. -/
def normalizeTileMap (nx ny : Nat) (t : TileMap) : TileMap :=
  let minValue := (normalizeScan nx ny t).1
  let maxValue := (normalizeScan nx ny t).2
  forCells nx ny
    (fun i j t => t.set i j (div (sub (t i j) minValue) (sub maxValue minValue))) t

/-- The finite value carried by a cell (0 for the special values). -/
def Float64.toRat : Float64 → ℚ
  | fin q => q
  | _ => 0

/-- Every cell of the `nx` by `ny` tile map is finite and `m` is the least of
their values. -/
def IsMinOver (nx ny : Nat) (t : TileMap) (m : ℚ) : Prop :=
  (∃ i j, i < nx ∧ j < ny ∧ t i j = fin m) ∧
    ∀ i j, i < nx → j < ny → ∃ q, t i j = fin q ∧ m ≤ q

/-- Every cell of the `nx` by `ny` tile map is finite and `M` is the greatest of
their values. -/
def IsMaxOver (nx ny : Nat) (t : TileMap) (M : ℚ) : Prop :=
  (∃ i j, i < nx ∧ j < ny ∧ t i j = fin M) ∧
    ∀ i j, i < nx → j < ny → ∃ q, t i j = fin q ∧ q ≤ M

/-! ## Random fills -/

/-- The function `setTilesRandomly_rl`.  `GetRandomValue i j` is the integer that
`rl.GetRandomValue(0, 100)` returns in the iteration for cell `(i, j)`. -/
def setTilesRandomly_rl (nx ny : Nat) (GetRandomValue : Nat → Nat → Int)
    (willModify : Bool) (t : TileMap) : TileMap :=
  forCells nx ny (fun i j t =>
    let randValue := div (ofInt (GetRandomValue i j)) (fin 100)
    if willModify then
      let oldValue := t i j
      let newValue := mul oldValue randValue
      t.set i j (div (add oldValue newValue) (fin 2))
    else
      t.set i j randValue) t

/-- The function `setTilesRandomly_rand`.  `randFloat64 i j` is the value that
`rand.Float64()` returns in the iteration for cell `(i, j)`. -/
def setTilesRandomly_rand (nx ny : Nat) (randFloat64 : Nat → Nat → Float64)
    (willModify : Bool) (t : TileMap) : TileMap :=
  forCells nx ny (fun i j t =>
    let randValue := randFloat64 i j
    if willModify then
      let oldValue := t i j
      let newValue := mul oldValue randValue
      t.set i j (div (add oldValue newValue) (fin 2))
    else
      t.set i j randValue) t

def alpha : Float64 := fin 3
def beta : Float64 := fin 4
def n : Int := 9

/-- A generator of the package `go-perlin`, seen through its method `Noise2D`. -/
abbrev Perlin := Float64 → Float64 → Float64

/-- The function `setTilesRandomly_perlin`.  `NewPerlin` is the constructor
`perlin.NewPerlin(alpha, beta, n, seed)` of the noise package and `Int63` the
value that `rand.Int63()` returns; the package variable `seed` is assigned that
value and read once, in the next line. -/
def setTilesRandomly_perlin (NewPerlin : Float64 → Float64 → Int → Int → Perlin)
    (nx ny : Nat) (Int63 : Int) (willModify : Bool) (t : TileMap) : TileMap :=
  let seed := Int63
  let p := NewPerlin alpha beta n seed
  forCells nx ny (fun x y t =>
    let randValue := p (div (ofInt x) (ofInt nx)) (div (ofInt y) (ofInt ny))
    let randValue := math.Min (math.Max randValue (fin 0)) (fin 1)
    if willModify then
      let oldValue := t x y
      let newValue := add (mul oldValue randValue) (fin (1 / 4))
      let newValue := math.Min (math.Max newValue (fin 0)) (fin 1)
      t.set x y (div (add oldValue newValue) (fin 2))
    else
      t.set x y randValue) t

/-- The function `setTilesRandomly_lehmer`.  `Int63 x y` is the value that
`lehmer.Int63()` returns in the iteration for cell `(x, y)`; the draw stored in
`seed` before the loops is not read again.  Go's `%` truncates toward zero. -/
def setTilesRandomly_lehmer (nx ny : Nat) (Int63 : Nat → Nat → Int)
    (willModify : Bool) (t : TileMap) : TileMap :=
  forCells nx ny (fun x y t =>
    let randInt := Int.tmod (Int63 x y) 100
    let randValue := div (ofInt randInt) (fin 100)
    let randValue := math.Min (math.Max randValue (fin 0)) (fin 1)
    if willModify then
      let oldValue := t x y
      let newValue := add (mul oldValue randValue) (fin (1 / 4))
      let newValue := math.Min (math.Max newValue (fin 0)) (fin 1)
      t.set x y (div (add oldValue newValue) (fin 2))
    else
      t.set x y randValue) t

/-- The function `mapGenerationRoutine`.  `Int63 i` is the value that
`rand.Int63()` returns in pass `i`. -/
def mapGenerationRoutine (NewPerlin : Float64 → Float64 → Int → Int → Perlin)
    (nx ny : Nat) (Int63 : Nat → Int) (willReset : Bool) (t : TileMap) : TileMap :=
  let t := if willReset then initTileMap nx ny t else t
  let perlinSteps := 4
  let t := (List.range perlinSteps).foldl
    (fun t i => setTilesRandomly_perlin NewPerlin nx ny (Int63 i) true t) t
  normalizeTileMap nx ny t

/-! ## The biome classifier -/

/-- The raylib colour `rl.Color`, as built by `rl.NewColor(r, g, b, a)`. -/
structure Color where
  R : Nat
  G : Nat
  B : Nat
  A : Nat
  deriving DecidableEq, Repr

def deepWater : Color := ⟨0, 0, 128, 255⟩
def shallowWater : Color := ⟨0, 0, 255, 255⟩
def sand : Color := ⟨240, 240, 64, 255⟩
def grass : Color := ⟨0, 255, 0, 255⟩
def forest : Color := ⟨0, 128, 0, 255⟩
def dirt : Color := ⟨128, 64, 0, 255⟩
def mountains : Color := ⟨128, 128, 128, 255⟩
def highMountains : Color := ⟨255, 255, 255, 255⟩

/-- The function `getColorFromSwitch`: a tagless `switch` whose cases are tried in order. -/
def getColorFromSwitch (tile : Float64) : Color :=
  if lt tile (fin (18 / 100)) then deepWater
  else if lt tile (fin (3 / 10)) then shallowWater
  else if lt tile (fin (4 / 10)) then sand
  else if lt tile (fin (5 / 10)) then grass
  else if lt tile (fin (7 / 10)) then forest
  else if lt tile (fin (82 / 100)) then dirt
  else if lt tile (fin (95 / 100)) then mountains
  else highMountains

/-! ## Sequences of passes -/

/-- A run of coherent-noise blend passes, one for each drawn seed, in order. -/
def perlinPasses (NewPerlin : Float64 → Float64 → Int → Int → Perlin) (nx ny : Nat)
    (seeds : List Int) (t : TileMap) : TileMap :=
  seeds.foldl (fun t s => setTilesRandomly_perlin NewPerlin nx ny s true t) t

/-- On a finite value the comparisons of the `switch` are comparisons of rationals. -/
theorem getColorFromSwitch_fin (v : ℚ) :
    getColorFromSwitch (fin v) =
      if v < 18 / 100 then deepWater
      else if v < 3 / 10 then shallowWater
      else if v < 4 / 10 then sand
      else if v < 5 / 10 then grass
      else if v < 7 / 10 then forest
      else if v < 82 / 100 then dirt
      else if v < 95 / 100 then mountains
      else highMountains := by
  simp only [getColorFromSwitch, lt, decide_eq_true_eq]

/-- The eight biome colours are pairwise distinct. -/
theorem colours_distinct :
    [deepWater, shallowWater, sand, grass, forest, dirt, mountains,
      highMountains].Pairwise (fun a b => a ≠ b) := by
  simp [deepWater, shallowWater, sand, grass, forest, dirt, mountains, highMountains]

theorem Color.eq_iff (a b : Color) :
    a = b ↔ (a.R = b.R ∧ a.G = b.G ∧ a.B = b.B ∧ a.A = b.A) := by
  cases a; cases b; simp

theorem getColorFromSwitch_deepWater_iff (v : ℚ) :
    getColorFromSwitch (fin v) = deepWater ↔ v < 18 / 100 := by
  rw [getColorFromSwitch_fin]
  split_ifs <;> simp only [Color.eq_iff, deepWater, shallowWater, sand, grass, forest, dirt,
    mountains, highMountains] <;> norm_num <;>
    linarith

theorem getColorFromSwitch_shallowWater_iff (v : ℚ) :
    getColorFromSwitch (fin v) = shallowWater ↔ 18 / 100 ≤ v ∧ v < 30 / 100 := by
  rw [getColorFromSwitch_fin]
  split_ifs <;> simp only [Color.eq_iff, deepWater, shallowWater, sand, grass, forest, dirt,
    mountains, highMountains] <;> norm_num <;>
    first | linarith | (constructor <;> linarith) | (intro _; linarith)

theorem getColorFromSwitch_sand_iff (v : ℚ) :
    getColorFromSwitch (fin v) = sand ↔ 30 / 100 ≤ v ∧ v < 40 / 100 := by
  rw [getColorFromSwitch_fin]
  split_ifs <;> simp only [Color.eq_iff, deepWater, shallowWater, sand, grass, forest, dirt,
    mountains, highMountains] <;> norm_num <;>
    first | linarith | (constructor <;> linarith) | (intro _; linarith)

theorem getColorFromSwitch_grass_iff (v : ℚ) :
    getColorFromSwitch (fin v) = grass ↔ 40 / 100 ≤ v ∧ v < 50 / 100 := by
  rw [getColorFromSwitch_fin]
  split_ifs <;> simp only [Color.eq_iff, deepWater, shallowWater, sand, grass, forest, dirt,
    mountains, highMountains] <;> norm_num <;>
    first | linarith | (constructor <;> linarith) | (intro _; linarith)

theorem getColorFromSwitch_forest_iff (v : ℚ) :
    getColorFromSwitch (fin v) = forest ↔ 50 / 100 ≤ v ∧ v < 70 / 100 := by
  rw [getColorFromSwitch_fin]
  split_ifs <;> simp only [Color.eq_iff, deepWater, shallowWater, sand, grass, forest, dirt,
    mountains, highMountains] <;> norm_num <;>
    first | linarith | (constructor <;> linarith) | (intro _; linarith)

theorem getColorFromSwitch_dirt_iff (v : ℚ) :
    getColorFromSwitch (fin v) = dirt ↔ 70 / 100 ≤ v ∧ v < 82 / 100 := by
  rw [getColorFromSwitch_fin]
  split_ifs <;> simp only [Color.eq_iff, deepWater, shallowWater, sand, grass, forest, dirt,
    mountains, highMountains] <;> norm_num <;>
    first | linarith | (constructor <;> linarith) | (intro _; linarith)

theorem getColorFromSwitch_mountains_iff (v : ℚ) :
    getColorFromSwitch (fin v) = mountains ↔ 82 / 100 ≤ v ∧ v < 95 / 100 := by
  rw [getColorFromSwitch_fin]
  split_ifs <;> simp only [Color.eq_iff, deepWater, shallowWater, sand, grass, forest, dirt,
    mountains, highMountains] <;> norm_num <;>
    first | linarith | (constructor <;> linarith) | (intro _; linarith)

theorem getColorFromSwitch_highMountains_iff (v : ℚ) :
    getColorFromSwitch (fin v) = highMountains ↔ 95 / 100 ≤ v := by
  rw [getColorFromSwitch_fin]
  split_ifs <;> simp only [Color.eq_iff, deepWater, shallowWater, sand, grass, forest, dirt,
    mountains, highMountains] <;> norm_num <;>
    linarith

/-- C1: on every finite tile value the classifier returns the colour of the
half-open bucket of the ascending boundaries 0.18, 0.30, 0.40, 0.50, 0.70,
0.82, 0.95; the eight colours are pairwise distinct; each boundary itself
falls in the upper bucket. -/
theorem getColorFromSwitch_buckets (v : ℚ) :
    (getColorFromSwitch (fin v) = deepWater ↔ v < 18 / 100) ∧
    (getColorFromSwitch (fin v) = shallowWater ↔ 18 / 100 ≤ v ∧ v < 30 / 100) ∧
    (getColorFromSwitch (fin v) = sand ↔ 30 / 100 ≤ v ∧ v < 40 / 100) ∧
    (getColorFromSwitch (fin v) = grass ↔ 40 / 100 ≤ v ∧ v < 50 / 100) ∧
    (getColorFromSwitch (fin v) = forest ↔ 50 / 100 ≤ v ∧ v < 70 / 100) ∧
    (getColorFromSwitch (fin v) = dirt ↔ 70 / 100 ≤ v ∧ v < 82 / 100) ∧
    (getColorFromSwitch (fin v) = mountains ↔ 82 / 100 ≤ v ∧ v < 95 / 100) ∧
    (getColorFromSwitch (fin v) = highMountains ↔ 95 / 100 ≤ v) ∧
    [deepWater, shallowWater, sand, grass, forest, dirt, mountains,
      highMountains].Pairwise (fun a b => a ≠ b) ∧
    getColorFromSwitch (fin (18 / 100)) = shallowWater ∧
    getColorFromSwitch (fin (30 / 100)) = sand ∧
    getColorFromSwitch (fin (40 / 100)) = grass ∧
    getColorFromSwitch (fin (50 / 100)) = forest ∧
    getColorFromSwitch (fin (70 / 100)) = dirt ∧
    getColorFromSwitch (fin (82 / 100)) = mountains ∧
    getColorFromSwitch (fin (95 / 100)) = highMountains :=
  ⟨getColorFromSwitch_deepWater_iff v, getColorFromSwitch_shallowWater_iff v,
    getColorFromSwitch_sand_iff v, getColorFromSwitch_grass_iff v,
    getColorFromSwitch_forest_iff v, getColorFromSwitch_dirt_iff v,
    getColorFromSwitch_mountains_iff v, getColorFromSwitch_highMountains_iff v,
    colours_distinct,
    (getColorFromSwitch_shallowWater_iff _).2 (by norm_num),
    (getColorFromSwitch_sand_iff _).2 (by norm_num),
    (getColorFromSwitch_grass_iff _).2 (by norm_num),
    (getColorFromSwitch_forest_iff _).2 (by norm_num),
    (getColorFromSwitch_dirt_iff _).2 (by norm_num),
    (getColorFromSwitch_mountains_iff _).2 (by norm_num),
    (getColorFromSwitch_highMountains_iff _).2 (by norm_num)⟩

/-! ## Loop nests as folds over the list of cells -/

theorem forCells_eq_foldl {σ : Type} (nx ny : Nat) (body : Nat → Nat → σ → σ) (s : σ) :
    forCells nx ny body s = (cells nx ny).foldl (fun s c => body c.1 c.2 s) s := by
  unfold forCells cells
  generalize List.range nx = L
  induction L generalizing s with
  | nil => rfl
  | cons i L ih =>
    simp only [List.foldl_cons, List.flatMap_cons, List.foldl_append, List.foldl_map]
    exact ih _

theorem mem_cells (nx ny i j : Nat) : (i, j) ∈ cells nx ny ↔ i < nx ∧ j < ny := by
  simp [cells]

theorem nodup_cells (nx ny : Nat) : (cells nx ny).Nodup := by
  unfold cells
  rw [List.nodup_flatMap]
  refine ⟨fun i _ => (List.nodup_range ny).map (fun a b h => by simpa using h), ?_⟩
  refine (List.nodup_range nx).imp ?_
  intro a b hab
  simp only [Function.onFun, List.Disjoint, List.mem_map, List.mem_range]
  rintro ⟨x, y⟩ ⟨j, _, h1⟩ ⟨k, _, h2⟩
  simp only [Prod.mk.injEq] at h1 h2
  exact hab (h1.1.trans h2.1.symm)

/-- A loop that assigns every visited cell a function of its own old value. -/
theorem foldl_set_apply (g : Nat → Nat → Float64 → Float64) (L : List (Nat × Nat))
    (hL : L.Nodup) (t : TileMap) (a b : Nat) :
    L.foldl (fun t c => t.set c.1 c.2 (g c.1 c.2 (t c.1 c.2))) t a b =
      if (a, b) ∈ L then g a b (t a b) else t a b := by
  induction L generalizing t with
  | nil => simp
  | cons c L ih =>
    rw [List.foldl_cons, ih (List.nodup_cons.1 hL).2]
    have hc := (List.nodup_cons.1 hL).1
    by_cases h : (a, b) = c
    · subst h
      simp [hc, TileMap.set]
    · have h1 : ¬ (a = c.1 ∧ b = c.2) := fun h2 => h (Prod.ext h2.1 h2.2)
      simp only [TileMap.set, h1, if_false, List.mem_cons, h, false_or]

theorem forCells_set_apply (nx ny : Nat) (g : Nat → Nat → Float64 → Float64)
    (t : TileMap) (a b : Nat) :
    forCells nx ny (fun i j t => t.set i j (g i j (t i j))) t a b =
      if a < nx ∧ b < ny then g a b (t a b) else t a b := by
  rw [forCells_eq_foldl, foldl_set_apply g _ (nodup_cells nx ny)]
  simp only [mem_cells]

/-! ## Arithmetic of finite values -/

theorem Min_fin (a b : ℚ) : math.Min (fin a) (fin b) = fin (min a b) := by
  simp only [math.Min, lt, decide_eq_true_eq]
  rcases lt_or_le a b with h | h
  · simp [h, min_eq_left h.le]
  · simp [not_lt.2 h, min_eq_right h]

theorem Max_fin (a b : ℚ) : math.Max (fin a) (fin b) = fin (max a b) := by
  simp only [math.Max, lt, decide_eq_true_eq]
  rcases lt_or_le b a with h | h
  · simp [h, max_eq_left h.le]
  · simp [not_lt.2 h, max_eq_right h]

theorem add_fin (a b : ℚ) : add (fin a) (fin b) = fin (a + b) := rfl

theorem sub_fin (a b : ℚ) : sub (fin a) (fin b) = fin (a - b) := by
  simp [sub, neg, add, sub_eq_add_neg]

theorem mul_fin (a b : ℚ) : mul (fin a) (fin b) = fin (a * b) := rfl

theorem div_fin (a b : ℚ) (hb : b ≠ 0) : div (fin a) (fin b) = fin (a / b) := by
  simp [div, hb]

theorem div_fin_zero_zero : div (fin 0) (fin 0) = nan := by
  simp [div]

/-! ## What one pass writes in a cell -/

theorem setTilesRandomly_rl_apply (nx ny : Nat) (GetRandomValue : Nat → Nat → Int)
    (willModify : Bool) (t : TileMap) (i j : Nat) (hi : i < nx) (hj : j < ny) :
    setTilesRandomly_rl nx ny GetRandomValue willModify t i j =
      if willModify then
        div (add (t i j) (mul (t i j) (div (ofInt (GetRandomValue i j)) (fin 100)))) (fin 2)
      else div (ofInt (GetRandomValue i j)) (fin 100) := by
  have h := forCells_set_apply nx ny (fun i j old =>
      if willModify then
        div (add old (mul old (div (ofInt (GetRandomValue i j)) (fin 100)))) (fin 2)
      else div (ofInt (GetRandomValue i j)) (fin 100)) t i j
  rw [if_pos ⟨hi, hj⟩] at h
  rw [← h]
  unfold setTilesRandomly_rl
  cases willModify <;> rfl

theorem setTilesRandomly_rand_apply (nx ny : Nat) (randFloat64 : Nat → Nat → Float64)
    (willModify : Bool) (t : TileMap) (i j : Nat) (hi : i < nx) (hj : j < ny) :
    setTilesRandomly_rand nx ny randFloat64 willModify t i j =
      if willModify then div (add (t i j) (mul (t i j) (randFloat64 i j))) (fin 2)
      else randFloat64 i j := by
  have h := forCells_set_apply nx ny (fun i j old =>
      if willModify then div (add old (mul old (randFloat64 i j))) (fin 2)
      else randFloat64 i j) t i j
  rw [if_pos ⟨hi, hj⟩] at h
  rw [← h]
  unfold setTilesRandomly_rand
  cases willModify <;> rfl

theorem setTilesRandomly_perlin_apply (NewPerlin : Float64 → Float64 → Int → Int → Perlin)
    (nx ny : Nat) (Int63 : Int) (willModify : Bool) (t : TileMap) (x y : Nat)
    (hx : x < nx) (hy : y < ny) :
    setTilesRandomly_perlin NewPerlin nx ny Int63 willModify t x y =
      if willModify then
        div (add (t x y) (math.Min (math.Max (add (mul (t x y)
          (math.Min (math.Max (NewPerlin alpha beta n Int63 (div (ofInt x) (ofInt nx))
            (div (ofInt y) (ofInt ny))) (fin 0)) (fin 1))) (fin (1 / 4))) (fin 0)) (fin 1)))
          (fin 2)
      else math.Min (math.Max (NewPerlin alpha beta n Int63 (div (ofInt x) (ofInt nx))
            (div (ofInt y) (ofInt ny))) (fin 0)) (fin 1) := by
  have h := forCells_set_apply nx ny (fun x y old =>
      if willModify then
        div (add old (math.Min (math.Max (add (mul old
          (math.Min (math.Max (NewPerlin alpha beta n Int63 (div (ofInt x) (ofInt nx))
            (div (ofInt y) (ofInt ny))) (fin 0)) (fin 1))) (fin (1 / 4))) (fin 0)) (fin 1)))
          (fin 2)
      else math.Min (math.Max (NewPerlin alpha beta n Int63 (div (ofInt x) (ofInt nx))
            (div (ofInt y) (ofInt ny))) (fin 0)) (fin 1)) t x y
  rw [if_pos ⟨hx, hy⟩] at h
  rw [← h]
  unfold setTilesRandomly_perlin
  cases willModify <;> rfl

theorem setTilesRandomly_lehmer_apply (nx ny : Nat) (Int63 : Nat → Nat → Int)
    (willModify : Bool) (t : TileMap) (x y : Nat) (hx : x < nx) (hy : y < ny) :
    setTilesRandomly_lehmer nx ny Int63 willModify t x y =
      if willModify then
        div (add (t x y) (math.Min (math.Max (add (mul (t x y)
          (math.Min (math.Max (div (ofInt (Int.tmod (Int63 x y) 100)) (fin 100)) (fin 0)) (fin 1)))
          (fin (1 / 4))) (fin 0)) (fin 1))) (fin 2)
      else math.Min (math.Max (div (ofInt (Int.tmod (Int63 x y) 100)) (fin 100)) (fin 0)) (fin 1) := by
  have h := forCells_set_apply nx ny (fun x y old =>
      if willModify then
        div (add old (math.Min (math.Max (add (mul old
          (math.Min (math.Max (div (ofInt (Int.tmod (Int63 x y) 100)) (fin 100)) (fin 0)) (fin 1)))
          (fin (1 / 4))) (fin 0)) (fin 1))) (fin 2)
      else math.Min (math.Max (div (ofInt (Int.tmod (Int63 x y) 100)) (fin 100)) (fin 0)) (fin 1)) t x y
  rw [if_pos ⟨hx, hy⟩] at h
  rw [← h]
  unfold setTilesRandomly_lehmer
  cases willModify <;> rfl

theorem initTileMap_apply (nx ny : Nat) (t : TileMap) (i j : Nat) :
    initTileMap nx ny t i j = if i < nx ∧ j < ny then fin (1 / 2) else t i j :=
  forCells_set_apply nx ny (fun _ _ _ => fin (1 / 2)) t i j

/-! ## The scan of `normalizeTileMap` -/

theorem foldl_scan_fin (L : List (Nat × Nat)) (t : TileMap) (g : Nat → Nat → ℚ)
    (h : ∀ c ∈ L, t c.1 c.2 = fin (g c.1 c.2)) (a b : ℚ) :
    L.foldl (fun mm c => (math.Min mm.1 (t c.1 c.2), math.Max mm.2 (t c.1 c.2)))
        (fin a, fin b) =
      (fin (L.foldl (fun m c => min m (g c.1 c.2)) a),
        fin (L.foldl (fun m c => max m (g c.1 c.2)) b)) := by
  induction L generalizing a b with
  | nil => rfl
  | cons c L ih =>
    simp only [List.foldl_cons]
    rw [h c (List.mem_cons_self _ _), Min_fin, Max_fin]
    exact ih (fun d hd => h d (List.mem_cons_of_mem _ hd)) _ _

theorem foldl_min_spec (L : List (Nat × Nat)) (g : Nat → Nat → ℚ) (a : ℚ) :
    L.foldl (fun m c => min m (g c.1 c.2)) a ≤ a ∧
    (∀ c ∈ L, L.foldl (fun m c => min m (g c.1 c.2)) a ≤ g c.1 c.2) ∧
    (L.foldl (fun m c => min m (g c.1 c.2)) a = a ∨
      ∃ c ∈ L, L.foldl (fun m c => min m (g c.1 c.2)) a = g c.1 c.2) := by
  induction L generalizing a with
  | nil => simp
  | cons c L ih =>
    simp only [List.foldl_cons]
    obtain ⟨h1, h2, h3⟩ := ih (min a (g c.1 c.2))
    refine ⟨h1.trans (min_le_left _ _), ?_, ?_⟩
    · intro d hd
      rcases List.mem_cons.1 hd with rfl | hd
      · exact h1.trans (min_le_right _ _)
      · exact h2 d hd
    · rcases h3 with h3 | ⟨d, hd, h3⟩
      · rcases min_choice a (g c.1 c.2) with h4 | h4
        · exact Or.inl (h3.trans h4)
        · exact Or.inr ⟨c, List.mem_cons_self _ _, h3.trans h4⟩
      · exact Or.inr ⟨d, List.mem_cons_of_mem _ hd, h3⟩

theorem foldl_max_spec (L : List (Nat × Nat)) (g : Nat → Nat → ℚ) (a : ℚ) :
    a ≤ L.foldl (fun m c => max m (g c.1 c.2)) a ∧
    (∀ c ∈ L, g c.1 c.2 ≤ L.foldl (fun m c => max m (g c.1 c.2)) a) ∧
    (L.foldl (fun m c => max m (g c.1 c.2)) a = a ∨
      ∃ c ∈ L, L.foldl (fun m c => max m (g c.1 c.2)) a = g c.1 c.2) := by
  induction L generalizing a with
  | nil => simp
  | cons c L ih =>
    simp only [List.foldl_cons]
    obtain ⟨h1, h2, h3⟩ := ih (max a (g c.1 c.2))
    refine ⟨(le_max_left _ _).trans h1, ?_, ?_⟩
    · intro d hd
      rcases List.mem_cons.1 hd with rfl | hd
      · exact (le_max_right _ _).trans h1
      · exact h2 d hd
    · rcases h3 with h3 | ⟨d, hd, h3⟩
      · rcases max_choice a (g c.1 c.2) with h4 | h4
        · exact Or.inl (h3.trans h4)
        · exact Or.inr ⟨c, List.mem_cons_self _ _, h3.trans h4⟩
      · exact Or.inr ⟨d, List.mem_cons_of_mem _ hd, h3⟩

theorem IsMinOver.cell_eq {nx ny : Nat} {t : TileMap} {m : ℚ} (h : IsMinOver nx ny t m)
    {i j : Nat} (hi : i < nx) (hj : j < ny) : t i j = fin (t i j).toRat := by
  obtain ⟨q, hq, _⟩ := h.2 i j hi hj
  rw [hq]; rfl

/-- On a tile map of finite values with least value `m` and greatest value `M`,
the scan ends with `minValue = min 1 m` and `maxValue = max 0 M`. -/
theorem normalizeScan_eq {nx ny : Nat} {t : TileMap} {m M : ℚ}
    (hmin : IsMinOver nx ny t m) (hmax : IsMaxOver nx ny t M) :
    normalizeScan nx ny t = (fin (min 1 m), fin (max 0 M)) := by
  have hfin : ∀ c ∈ cells nx ny, t c.1 c.2 = fin ((fun i j => (t i j).toRat) c.1 c.2) := by
    rintro ⟨i, j⟩ hc
    rw [mem_cells] at hc
    exact hmin.cell_eq hc.1 hc.2
  unfold normalizeScan
  rw [forCells_eq_foldl, foldl_scan_fin _ t (fun i j => (t i j).toRat) hfin]
  obtain ⟨a1, a2, a3⟩ := foldl_min_spec (cells nx ny) (fun i j => (t i j).toRat) 1
  obtain ⟨b1, b2, b3⟩ := foldl_max_spec (cells nx ny) (fun i j => (t i j).toRat) 0
  have hval : ∀ c ∈ cells nx ny, m ≤ (t c.1 c.2).toRat ∧ (t c.1 c.2).toRat ≤ M := by
    rintro ⟨i, j⟩ hc
    rw [mem_cells] at hc
    obtain ⟨q, hq, hq1⟩ := hmin.2 i j hc.1 hc.2
    obtain ⟨q', hq', hq2⟩ := hmax.2 i j hc.1 hc.2
    have : q' = q := by rw [hq] at hq'; injection hq' with h; exact h.symm
    subst this
    simp only [hq, Float64.toRat]
    exact ⟨hq1, hq2⟩
  obtain ⟨i, j, hi, hj, hm⟩ := hmin.1
  obtain ⟨k, l, hk, hl, hM⟩ := hmax.1
  have c1 := a2 (i, j) ((mem_cells _ _ _ _).2 ⟨hi, hj⟩)
  have c2 := b2 (k, l) ((mem_cells _ _ _ _).2 ⟨hk, hl⟩)
  simp only [hm, hM, Float64.toRat] at c1 c2
  congr 2
  · apply le_antisymm (le_min a1 c1)
    rcases a3 with a3 | ⟨c, hc, a3⟩
    · rw [a3]; exact min_le_left _ _
    · rw [a3]; exact (min_le_right _ _).trans (hval c hc).1
  · apply le_antisymm _ (max_le b1 c2)
    rcases b3 with b3 | ⟨c, hc, b3⟩
    · rw [b3]; exact le_max_left _ _
    · rw [b3]; exact (hval c hc).2.trans (le_max_right _ _)

theorem normalizeTileMap_apply (nx ny : Nat) (t : TileMap) (i j : Nat) :
    normalizeTileMap nx ny t i j =
      if i < nx ∧ j < ny then
        div (sub (t i j) (normalizeScan nx ny t).1)
          (sub (normalizeScan nx ny t).2 (normalizeScan nx ny t).1)
      else t i j :=
  forCells_set_apply nx ny (fun _ _ old => div (sub old (normalizeScan nx ny t).1)
    (sub (normalizeScan nx ny t).2 (normalizeScan nx ny t).1)) t i j

/-- On a non-degenerate tile map of finite values every cell `q` is rewritten to
`(q - min 1 m) / (max 0 M - min 1 m)`, and the divisor is positive. -/
theorem normalizeTileMap_apply_fin {nx ny : Nat} {t : TileMap} {m M : ℚ}
    (hmin : IsMinOver nx ny t m) (hmax : IsMaxOver nx ny t M) (hlt : m < M)
    {i j : Nat} (hi : i < nx) (hj : j < ny) :
    0 < max 0 M - min 1 m ∧
    normalizeTileMap nx ny t i j =
      fin (((t i j).toRat - min 1 m) / (max 0 M - min 1 m)) := by
  have hpos : 0 < max 0 M - min 1 m := by
    have h1 : min 1 m ≤ m := min_le_right _ _
    have h2 : M ≤ max 0 M := le_max_right _ _
    linarith
  refine ⟨hpos, ?_⟩
  rw [normalizeTileMap_apply, if_pos ⟨hi, hj⟩, normalizeScan_eq hmin hmax]
  simp only
  rw [hmin.cell_eq hi hj, sub_fin, sub_fin, div_fin _ _ hpos.ne']
  rfl

/-! ## The clamp `math.Min(math.Max(v, 0), 1)` and the Lehmer draw -/

theorem clamp_fin (q : ℚ) :
    math.Min (math.Max (fin q) (fin 0)) (fin 1) = fin (min (max q 0) 1) := by
  rw [Max_fin, Min_fin]

theorem clamp_fin_of_mem (q : ℚ) (h0 : 0 ≤ q) (h1 : q ≤ 1) :
    math.Min (math.Max (fin q) (fin 0)) (fin 1) = fin q := by
  rw [clamp_fin, max_eq_left h0, min_eq_left h1]

theorem ofInt_div_hundred (k : Int) : div (ofInt k) (fin 100) = fin ((k : ℚ) / 100) :=
  div_fin _ _ (by norm_num)

theorem lehmer_randValue (v : Int) (h0 : 0 ≤ v) :
    div (ofInt (Int.tmod v 100)) (fin 100) = fin (((v % 100 : Int) : ℚ) / 100) ∧
    (0 : ℚ) ≤ ((v % 100 : Int) : ℚ) / 100 ∧ ((v % 100 : Int) : ℚ) / 100 < 1 := by
  have e : Int.tmod v 100 = v % 100 := Int.tmod_eq_emod h0 (by norm_num)
  have a : (0 : Int) ≤ v % 100 := Int.emod_nonneg v (by norm_num)
  have b : v % 100 < 100 := Int.emod_lt_of_pos v (by norm_num)
  have a' : (0 : ℚ) ≤ ((v % 100 : Int) : ℚ) := by exact_mod_cast a
  have b' : ((v % 100 : Int) : ℚ) < 100 := by exact_mod_cast b
  refine ⟨by rw [e, ofInt_div_hundred], by positivity, ?_⟩
  rw [div_lt_one (by norm_num)]
  exact b'

/-! ## The blend formulas -/

/-- C5: in a cell with finite prior value `old`, the two platform fills write the
draw `r` itself when `willModify` is false and `(old + old * r) / 2` when it is
true, where `r` is `k / 100` for the raylib draw `k` and the value of
`rand.Float64()` for the other; `old = 0.5` and `r = 0.4` give `0.35`. -/
theorem uniform_blend (nx ny : Nat) (GetRandomValue : Nat → Nat → Int)
    (randFloat64 : Nat → Nat → Float64) (t : TileMap) (i j : Nat) (old r : ℚ)
    (hi : i < nx) (hj : j < ny) (hold : t i j = fin old) (hr : randFloat64 i j = fin r) :
    setTilesRandomly_rl nx ny GetRandomValue false t i j
      = fin ((GetRandomValue i j : ℚ) / 100) ∧
    setTilesRandomly_rl nx ny GetRandomValue true t i j
      = fin ((old + old * ((GetRandomValue i j : ℚ) / 100)) / 2) ∧
    setTilesRandomly_rand nx ny randFloat64 false t i j = fin r ∧
    setTilesRandomly_rand nx ny randFloat64 true t i j = fin ((old + old * r) / 2) ∧
    (old = 1 / 2 → GetRandomValue i j = 40 →
      setTilesRandomly_rl nx ny GetRandomValue true t i j = fin (35 / 100)) ∧
    (old = 1 / 2 → r = 4 / 10 →
      setTilesRandomly_rand nx ny randFloat64 true t i j = fin (35 / 100)) := by
  have h1 : setTilesRandomly_rl nx ny GetRandomValue true t i j
      = fin ((old + old * ((GetRandomValue i j : ℚ) / 100)) / 2) := by
    rw [setTilesRandomly_rl_apply _ _ _ _ _ _ _ hi hj, if_pos rfl, hold, ofInt_div_hundred,
      mul_fin, add_fin, div_fin _ _ (by norm_num)]
  have h2 : setTilesRandomly_rand nx ny randFloat64 true t i j = fin ((old + old * r) / 2) := by
    rw [setTilesRandomly_rand_apply _ _ _ _ _ _ _ hi hj, if_pos rfl, hold, hr,
      mul_fin, add_fin, div_fin _ _ (by norm_num)]
  refine ⟨?_, h1, ?_, h2, ?_, ?_⟩
  · rw [setTilesRandomly_rl_apply _ _ _ _ _ _ _ hi hj, if_neg (by simp), ofInt_div_hundred]
  · rw [setTilesRandomly_rand_apply _ _ _ _ _ _ _ hi hj, if_neg (by simp), hr]
  · intro ho hk
    rw [h1, ho, hk]; norm_num
  · intro ho hk
    rw [h2, ho, hk]; norm_num

/-- Both platform blends on the one-cell tile map 0.5 with the draw 0.4. -/
theorem uniform_blend_witness :
    setTilesRandomly_rl 1 1 (fun _ _ => 40) true (fun _ _ => fin (1 / 2)) 0 0
      = fin (35 / 100) ∧
    setTilesRandomly_rand 1 1 (fun _ _ => fin (4 / 10)) true (fun _ _ => fin (1 / 2)) 0 0
      = fin (35 / 100) :=
  have h := uniform_blend 1 1 (fun _ _ => 40) (fun _ _ => fin (4 / 10))
    (fun _ _ => fin (1 / 2)) 0 0 (1 / 2) (4 / 10) (by decide) (by decide) rfl rfl
  ⟨h.2.2.2.2.1 rfl rfl, h.2.2.2.2.2 rfl rfl⟩

/-- C6: in cell `(x, y)` with finite prior value `old`, where the noise
generator of the pass returns the finite sample `s` at `(x / nx, y / ny)`, the
coherent-noise fill uses `r = clamp(s, 0, 1)`; it writes `r` when `willModify`
is false and `(old + clamp(old * r + 0.25, 0, 1)) / 2` when it is true;
`old = 0.5` and `r = 0.4` give `new = 0.45` and the cell `0.475`. -/
theorem perlin_blend (NewPerlin : Float64 → Float64 → Int → Int → Perlin) (nx ny : Nat)
    (Int63 : Int) (t : TileMap) (x y : Nat) (old s : ℚ)
    (hx : x < nx) (hy : y < ny) (hold : t x y = fin old)
    (hs : NewPerlin alpha beta n Int63 (fin ((x : ℚ) / nx)) (fin ((y : ℚ) / ny)) = fin s) :
    setTilesRandomly_perlin NewPerlin nx ny Int63 false t x y = fin (min (max s 0) 1) ∧
    setTilesRandomly_perlin NewPerlin nx ny Int63 true t x y
      = fin ((old + min (max (old * min (max s 0) 1 + 1 / 4) 0) 1) / 2) ∧
    (old = 1 / 2 → s = 4 / 10 →
      min (max (old * min (max s 0) 1 + 1 / 4) 0) 1 = 45 / 100 ∧
      setTilesRandomly_perlin NewPerlin nx ny Int63 true t x y = fin (475 / 1000)) := by
  have cx : div (ofInt (x : Int)) (ofInt (nx : Int)) = fin ((x : ℚ) / nx) := by
    have : (nx : ℚ) ≠ 0 := by
      have : 0 < nx := by omega
      positivity
    simp only [ofInt, Int.cast_natCast]
    exact div_fin _ _ this
  have cy : div (ofInt (y : Int)) (ofInt (ny : Int)) = fin ((y : ℚ) / ny) := by
    have : (ny : ℚ) ≠ 0 := by
      have : 0 < ny := by omega
      positivity
    simp only [ofInt, Int.cast_natCast]
    exact div_fin _ _ this
  have h1 : setTilesRandomly_perlin NewPerlin nx ny Int63 true t x y
      = fin ((old + min (max (old * min (max s 0) 1 + 1 / 4) 0) 1) / 2) := by
    rw [setTilesRandomly_perlin_apply _ _ _ _ _ _ _ _ hx hy, if_pos rfl, cx, cy, hs, hold,
      clamp_fin, mul_fin, add_fin, clamp_fin, add_fin, div_fin _ _ (by norm_num)]
  refine ⟨?_, h1, ?_⟩
  · rw [setTilesRandomly_perlin_apply _ _ _ _ _ _ _ _ hx hy, if_neg (by simp), cx, cy, hs,
      clamp_fin]
  · intro ho hk
    have e : min (max (old * min (max s 0) 1 + 1 / 4) 0) 1 = 45 / 100 := by
      rw [ho, hk]
      rw [max_eq_left (by norm_num), min_eq_left (by norm_num), max_eq_left (by norm_num),
        min_eq_left (by norm_num)]
      norm_num
    refine ⟨e, ?_⟩
    rw [h1, e, ho]; norm_num

/-- The coherent-noise blend on the one-cell tile map 0.5 with the sample 0.4. -/
theorem perlin_blend_witness :
    setTilesRandomly_perlin (fun _ _ _ _ _ _ => fin (4 / 10)) 1 1 7 true
      (fun _ _ => fin (1 / 2)) 0 0 = fin (475 / 1000) :=
  ((perlin_blend (fun _ _ _ _ _ _ => fin (4 / 10)) 1 1 7 (fun _ _ => fin (1 / 2)) 0 0
    (1 / 2) (4 / 10) (by decide) (by decide) rfl rfl).2.2 rfl rfl).2

/-- What the Lehmer fill writes in a cell with finite prior value `old`, for a
non-negative draw: with `r = (v % 100) / 100`, the value `r` when `willModify`
is false and `(old + clamp(old * r + 0.25, 0, 1)) / 2` when it is true. -/
theorem setTilesRandomly_lehmer_fin (nx ny : Nat) (Int63 : Nat → Nat → Int) (t : TileMap)
    (x y : Nat) (old : ℚ) (hx : x < nx) (hy : y < ny) (hold : t x y = fin old)
    (h0 : 0 ≤ Int63 x y) :
    setTilesRandomly_lehmer nx ny Int63 false t x y
      = fin (((Int63 x y % 100 : Int) : ℚ) / 100) ∧
    setTilesRandomly_lehmer nx ny Int63 true t x y
      = fin ((old + min (max (old * (((Int63 x y % 100 : Int) : ℚ) / 100) + 1 / 4) 0) 1)
          / 2) := by
  obtain ⟨e, a, b⟩ := lehmer_randValue (Int63 x y) h0
  constructor
  · rw [setTilesRandomly_lehmer_apply _ _ _ _ _ _ _ hx hy, if_neg (by simp), e,
      clamp_fin_of_mem _ a b.le]
  · rw [setTilesRandomly_lehmer_apply _ _ _ _ _ _ _ hx hy, if_pos rfl, e,
      clamp_fin_of_mem _ a b.le, hold, mul_fin, add_fin, clamp_fin, add_fin,
      div_fin _ _ (by norm_num)]

/-- C7, as stated, fails: with `old = 0.5` and the Lehmer draw 40 (`r = 0.4`) the
Lehmer blend writes `0.475`, not the value `0.35` of the uniform formula. -/
theorem lehmer_blend_not_uniform :
    setTilesRandomly_lehmer 1 1 (fun _ _ => 40) true (fun _ _ => fin (1 / 2)) 0 0
      = fin (475 / 1000) ∧
    setTilesRandomly_lehmer 1 1 (fun _ _ => 40) true (fun _ _ => fin (1 / 2)) 0 0
      ≠ fin ((1 / 2 + 1 / 2 * (4 / 10)) / 2) := by
  have h := (setTilesRandomly_lehmer_fin 1 1 (fun _ _ => 40) (fun _ _ => fin (1 / 2)) 0 0
    (1 / 2) (by decide) (by decide) rfl (by decide)).2
  have e : ((((40 : Int) % 100 : Int) : ℚ) / 100) = 4 / 10 := by norm_num
  simp only [e] at h
  rw [max_eq_left (by norm_num), min_eq_left (by norm_num)] at h
  rw [h]
  constructor
  · norm_num
  · intro hc
    injection hc with hc
    norm_num at hc

/-- C7, amended: in a cell with finite prior value `old`, for a non-negative
Lehmer draw `v` and `r = (v % 100) / 100`, the Lehmer blend writes
`(old + clamp(old * r + 0.25, 0, 1)) / 2`, the formula of the coherent-noise
fill; `old = 0.5` and `r = 0.4` give `0.475`. -/
theorem lehmer_blend (nx ny : Nat) (Int63 : Nat → Nat → Int) (t : TileMap)
    (x y : Nat) (old : ℚ) (hx : x < nx) (hy : y < ny) (hold : t x y = fin old)
    (h0 : 0 ≤ Int63 x y) :
    setTilesRandomly_lehmer nx ny Int63 true t x y
      = fin ((old + min (max (old * (((Int63 x y % 100 : Int) : ℚ) / 100) + 1 / 4) 0) 1)
          / 2) ∧
    (old = 1 / 2 → Int63 x y = 40 →
      setTilesRandomly_lehmer nx ny Int63 true t x y = fin (475 / 1000)) := by
  have h := (setTilesRandomly_lehmer_fin nx ny Int63 t x y old hx hy hold h0).2
  refine ⟨h, ?_⟩
  intro ho hv
  rw [h, ho, hv]
  have e : ((((40 : Int) % 100 : Int) : ℚ) / 100) = 4 / 10 := by norm_num
  rw [e, max_eq_left (by norm_num), min_eq_left (by norm_num)]
  norm_num

/-- The Lehmer blend on the one-cell tile map 0.5 with the draw 40. -/
theorem lehmer_blend_witness :
    setTilesRandomly_lehmer 1 1 (fun _ _ => 40) true (fun _ _ => fin (1 / 2)) 0 0
      = fin (475 / 1000) :=
  (lehmer_blend 1 1 (fun _ _ => 40) (fun _ _ => fin (1 / 2)) 0 0 (1 / 2)
    (by decide) (by decide) rfl (by decide)).2 rfl rfl

/-! ## The layered generation routine -/

/-- C8: `mapGenerationRoutine` is one normalisation applied to four successive
coherent-noise blend passes, pass `i` with the generator of its own seed
`Int63 i`; the passes start from the reset tile map, whose cells are all 0.5,
when `willReset` is true, and from the prior tile map when it is false. -/
theorem mapGenerationRoutine_eq (NewPerlin : Float64 → Float64 → Int → Int → Perlin)
    (nx ny : Nat) (Int63 : Nat → Int) (t : TileMap) :
    mapGenerationRoutine NewPerlin nx ny Int63 true t =
      normalizeTileMap nx ny
        (setTilesRandomly_perlin NewPerlin nx ny (Int63 3) true
          (setTilesRandomly_perlin NewPerlin nx ny (Int63 2) true
            (setTilesRandomly_perlin NewPerlin nx ny (Int63 1) true
              (setTilesRandomly_perlin NewPerlin nx ny (Int63 0) true
                (initTileMap nx ny t))))) ∧
    mapGenerationRoutine NewPerlin nx ny Int63 false t =
      normalizeTileMap nx ny
        (setTilesRandomly_perlin NewPerlin nx ny (Int63 3) true
          (setTilesRandomly_perlin NewPerlin nx ny (Int63 2) true
            (setTilesRandomly_perlin NewPerlin nx ny (Int63 1) true
              (setTilesRandomly_perlin NewPerlin nx ny (Int63 0) true t)))) ∧
    ∀ i j, i < nx → j < ny → initTileMap nx ny t i j = fin (1 / 2) := by
  refine ⟨rfl, rfl, ?_⟩
  intro i j hi hj
  rw [initTileMap_apply, if_pos ⟨hi, hj⟩]

/-- The reset tile map of one cell holds 0.5. -/
theorem mapGenerationRoutine_eq_witness :
    initTileMap 1 1 (fun _ _ => fin 0) 0 0 = fin (1 / 2) :=
  (mapGenerationRoutine_eq (fun _ _ _ _ _ _ => fin 0) 1 1 (fun _ => 0)
    (fun _ _ => fin 0)).2.2 0 0 (by decide) (by decide)

/-! ## The range of the draws -/

/-- C9, as stated, fails: the draw 100, which `rl.GetRandomValue(0, 100)` can
return, gives `r = 1`, outside the half-open interval. -/
theorem rl_draw_not_below_one :
    (0 : Int) ≤ 100 ∧ (100 : Int) ≤ 100 ∧
    setTilesRandomly_rl 1 1 (fun _ _ => 100) false (fun _ _ => fin (1 / 2)) 0 0 = fin 1 ∧
    ¬ ∃ r : ℚ, setTilesRandomly_rl 1 1 (fun _ _ => 100) false (fun _ _ => fin (1 / 2)) 0 0
      = fin r ∧ 0 ≤ r ∧ r < 1 := by
  have h : setTilesRandomly_rl 1 1 (fun _ _ => 100) false (fun _ _ => fin (1 / 2)) 0 0
      = fin 1 := by
    rw [setTilesRandomly_rl_apply _ _ _ _ _ _ _ (by decide) (by decide), if_neg (by simp),
      ofInt_div_hundred]
    norm_num
  refine ⟨by decide, by decide, h, ?_⟩
  rintro ⟨r, hr, _, h1⟩
  rw [h] at hr
  injection hr with hr
  rw [← hr] at h1
  exact lt_irrefl _ h1

/-- C9, amended: for every draw `k` with `0 ≤ k ≤ 100` the value `r = k / 100`
used by `setTilesRandomly_rl` lies in the closed interval `[0, 1]`, and it is
below 1 exactly when `k < 100`. -/
theorem rl_draw_range (nx ny : Nat) (GetRandomValue : Nat → Nat → Int) (t : TileMap)
    (i j : Nat) (hi : i < nx) (hj : j < ny)
    (h0 : 0 ≤ GetRandomValue i j) (h100 : GetRandomValue i j ≤ 100) :
    setTilesRandomly_rl nx ny GetRandomValue false t i j
      = fin ((GetRandomValue i j : ℚ) / 100) ∧
    (0 : ℚ) ≤ (GetRandomValue i j : ℚ) / 100 ∧ (GetRandomValue i j : ℚ) / 100 ≤ 1 ∧
    ((GetRandomValue i j : ℚ) / 100 < 1 ↔ GetRandomValue i j < 100) := by
  have a : (0 : ℚ) ≤ (GetRandomValue i j : ℚ) := by exact_mod_cast h0
  have b : (GetRandomValue i j : ℚ) ≤ 100 := by exact_mod_cast h100
  refine ⟨?_, by positivity, ?_, ?_⟩
  · rw [setTilesRandomly_rl_apply _ _ _ _ _ _ _ hi hj, if_neg (by simp), ofInt_div_hundred]
  · rw [div_le_one (by norm_num)]; exact b
  · rw [div_lt_one (by norm_num)]
    constructor
    · intro h; exact_mod_cast h
    · intro h; exact_mod_cast h

/-- The raylib draw 100 on a one-cell tile map. -/
theorem rl_draw_range_witness :
    setTilesRandomly_rl 1 1 (fun _ _ => 100) false (fun _ _ => fin (1 / 2)) 0 0
      = fin (((100 : Int) : ℚ) / 100) ∧
    (0 : ℚ) ≤ ((100 : Int) : ℚ) / 100 ∧ ((100 : Int) : ℚ) / 100 ≤ 1 ∧
    (((100 : Int) : ℚ) / 100 < 1 ↔ (100 : Int) < 100) :=
  rl_draw_range 1 1 (fun _ _ => 100) (fun _ _ => fin (1 / 2)) 0 0 (by decide) (by decide)
    (by decide) (by decide)

/-- C10: for every non-negative 63-bit Lehmer draw `v`, the value before the clamp
is `r = (v % 100) / 100`, the clamp leaves it unchanged, it is the value that
`setTilesRandomly_lehmer` uses (and writes when `willModify` is false), it is
one of `0/100, 1/100, ..., 99/100`, and `0 ≤ r < 1`. -/
theorem lehmer_draw_range (nx ny : Nat) (Int63 : Nat → Nat → Int) (t : TileMap)
    (x y : Nat) (v : Int) (hx : x < nx) (hy : y < ny) (hv : Int63 x y = v)
    (h0 : 0 ≤ v) (_h63 : v < 2 ^ 63) :
    div (ofInt (Int.tmod v 100)) (fin 100) = fin (((v % 100 : Int) : ℚ) / 100) ∧
    math.Min (math.Max (fin (((v % 100 : Int) : ℚ) / 100)) (fin 0)) (fin 1)
      = fin (((v % 100 : Int) : ℚ) / 100) ∧
    setTilesRandomly_lehmer nx ny Int63 false t x y = fin (((v % 100 : Int) : ℚ) / 100) ∧
    (∃ k : Nat, k < 100 ∧ ((v % 100 : Int) : ℚ) / 100 = (k : ℚ) / 100) ∧
    (0 : ℚ) ≤ ((v % 100 : Int) : ℚ) / 100 ∧ ((v % 100 : Int) : ℚ) / 100 < 1 := by
  obtain ⟨e, a, b⟩ := lehmer_randValue v h0
  refine ⟨e, clamp_fin_of_mem _ a b.le, ?_, ?_, a, b⟩
  · rw [setTilesRandomly_lehmer_apply _ _ _ _ _ _ _ hx hy, if_neg (by simp), hv, e,
      clamp_fin_of_mem _ a b.le]
  · have a' : (0 : Int) ≤ v % 100 := Int.emod_nonneg v (by norm_num)
    have b' : v % 100 < 100 := Int.emod_lt_of_pos v (by norm_num)
    refine ⟨(v % 100).toNat, by omega, ?_⟩
    congr 1
    have : (((v % 100).toNat : Int) : ℚ) = ((v % 100 : Int) : ℚ) := by
      rw [Int.toNat_of_nonneg a']
    rw [← this]; norm_cast

/-- The Lehmer draw 1234567 on a one-cell tile map. -/
theorem lehmer_draw_range_witness :
    setTilesRandomly_lehmer 1 1 (fun _ _ => 1234567) false (fun _ _ => fin (1 / 2)) 0 0
      = fin ((((1234567 : Int) % 100 : Int) : ℚ) / 100) :=
  (lehmer_draw_range 1 1 (fun _ _ => 1234567) (fun _ _ => fin (1 / 2)) 0 0 1234567
    (by decide) (by decide) rfl (by decide) (by decide)).2.2.1

/-! ## Normalisation -/

/-- The tile map with `tileMap[i][0] = 2` and the value 3 in every other cell. -/
theorem twoThree_min_max :
    IsMinOver 1 2 (fun _ j => if j = 0 then fin 2 else fin 3) 2 ∧
    IsMaxOver 1 2 (fun _ j => if j = 0 then fin 2 else fin 3) 3 := by
  refine ⟨⟨⟨0, 0, by decide, by decide, by simp⟩, ?_⟩, ⟨⟨0, 1, by decide, by decide, by simp⟩, ?_⟩⟩
  · intro i j _ _
    by_cases h : j = 0
    · exact ⟨2, by simp [h], le_refl _⟩
    · exact ⟨3, by simp [h], by norm_num⟩
  · intro i j _ _
    by_cases h : j = 0
    · exact ⟨2, by simp [h], by norm_num⟩
    · exact ⟨3, by simp [h], le_refl _⟩

/-- C2, as stated, fails: on the one-by-two tile map with the cells 2 and 3 (true
minimum 2 below true maximum 3) the scan keeps `minValue = 1.0`, the cells
become 0.5 and 1, and the least cell is not 0. -/
theorem normalizeTileMap_min_not_zero :
    IsMinOver 1 2 (fun _ j => if j = 0 then fin 2 else fin 3) 2 ∧
    IsMaxOver 1 2 (fun _ j => if j = 0 then fin 2 else fin 3) 3 ∧
    normalizeTileMap 1 2 (fun _ j => if j = 0 then fin 2 else fin 3) 0 0 = fin (1 / 2) ∧
    normalizeTileMap 1 2 (fun _ j => if j = 0 then fin 2 else fin 3) 0 1 = fin 1 ∧
    ¬ IsMinOver 1 2 (normalizeTileMap 1 2 (fun _ j => if j = 0 then fin 2 else fin 3)) 0 := by
  obtain ⟨hmin, hmax⟩ := twoThree_min_max
  have h0 := (normalizeTileMap_apply_fin hmin hmax (by norm_num)
    (show 0 < 1 by decide) (show 0 < 2 by decide)).2
  have h1 := (normalizeTileMap_apply_fin hmin hmax (by norm_num)
    (show 0 < 1 by decide) (show 1 < 2 by decide)).2
  have e0 : normalizeTileMap 1 2 (fun _ j => if j = 0 then fin 2 else fin 3) 0 0
      = fin (1 / 2) := by
    rw [h0]; simp only [if_pos, Float64.toRat]; norm_num
  have e1 : normalizeTileMap 1 2 (fun _ j => if j = 0 then fin 2 else fin 3) 0 1
      = fin 1 := by
    rw [h1]; simp only [Float64.toRat]; norm_num [Float64.toRat]
  refine ⟨hmin, hmax, e0, e1, ?_⟩
  rintro ⟨⟨i, j, hi, hj, h⟩, _⟩
  have hi0 : i = 0 := by omega
  subst hi0
  have hj' : j = 0 ∨ j = 1 := by omega
  rcases hj' with rfl | rfl
  · rw [e0] at h; injection h with h; norm_num at h
  · rw [e1] at h; injection h with h; norm_num at h

/-- The tile map with `tileMap[i][0] = 0.25` and the value 0.75 in every other cell. -/
theorem quarters_min_max :
    IsMinOver 1 2 (fun _ j => if j = 0 then fin (1 / 4) else fin (3 / 4)) (1 / 4) ∧
    IsMaxOver 1 2 (fun _ j => if j = 0 then fin (1 / 4) else fin (3 / 4)) (3 / 4) := by
  refine ⟨⟨⟨0, 0, by decide, by decide, by simp⟩, ?_⟩, ⟨⟨0, 1, by decide, by decide, by simp⟩, ?_⟩⟩
  · intro i j _ _
    by_cases h : j = 0
    · exact ⟨1 / 4, by simp [h], le_refl _⟩
    · exact ⟨3 / 4, by simp [h], by norm_num⟩
  · intro i j _ _
    by_cases h : j = 0
    · exact ⟨1 / 4, by simp [h], by norm_num⟩
    · exact ⟨3 / 4, by simp [h], le_refl _⟩

/-- The scan on a flat tile map whose value `c` lies in `[0, 1]` ends with
`minValue = maxValue = c`, and every cell becomes `0 / 0`. -/
theorem normalizeTileMap_flat (nx ny : Nat) (t : TileMap) (c : ℚ) (h0 : 0 ≤ c) (h1 : c ≤ 1)
    (hflat : ∀ i j, i < nx → j < ny → t i j = fin c) (i j : Nat) (hi : i < nx)
    (hj : j < ny) : normalizeTileMap nx ny t i j = nan := by
  have hmin : IsMinOver nx ny t c :=
    ⟨⟨i, j, hi, hj, hflat i j hi hj⟩, fun a b ha hb => ⟨c, hflat a b ha hb, le_refl _⟩⟩
  have hmax : IsMaxOver nx ny t c :=
    ⟨⟨i, j, hi, hj, hflat i j hi hj⟩, fun a b ha hb => ⟨c, hflat a b ha hb, le_refl _⟩⟩
  rw [normalizeTileMap_apply, if_pos ⟨hi, hj⟩, normalizeScan_eq hmin hmax]
  simp only
  rw [min_eq_right h1, max_eq_right h0, hflat i j hi hj, sub_fin, sub_self, div_fin_zero_zero]

/-- C3, on the code: after `initTileMap`, `normalizeTileMap` stores `NaN` in every
cell of the tile map (the quotient `0 / 0`), so the flat tile map of value 0.5
is not left unchanged. -/
theorem normalizeTileMap_reset_nan (nx ny : Nat) (t : TileMap) (i j : Nat)
    (hi : i < nx) (hj : j < ny) :
    initTileMap nx ny t i j = fin (1 / 2) ∧
    normalizeTileMap nx ny (initTileMap nx ny t) i j = nan ∧
    normalizeTileMap nx ny (initTileMap nx ny t) i j ≠ initTileMap nx ny t i j := by
  have hflat : ∀ a b, a < nx → b < ny → initTileMap nx ny t a b = fin (1 / 2) := by
    intro a b ha hb
    rw [initTileMap_apply, if_pos ⟨ha, hb⟩]
  have h := normalizeTileMap_flat nx ny (initTileMap nx ny t) (1 / 2) (by norm_num)
    (by norm_num) hflat i j hi hj
  refine ⟨hflat i j hi hj, h, ?_⟩
  rw [h, hflat i j hi hj]
  exact fun hc => Float64.noConfusion hc

/-- Cell `(0, 0)` of the 1200 by 675 tile map after a reset and a normalisation. -/
theorem normalizeTileMap_reset_nan_witness :
    normalizeTileMap numTilesX numTilesY
      (initTileMap numTilesX numTilesY (fun _ _ => fin 0)) 0 0 = nan :=
  (normalizeTileMap_reset_nan numTilesX numTilesY (fun _ _ => fin 0) 0 0
    (by decide) (by decide)).2.1

/-! ## The reset covers the tile map -/

/-- C11: the loop bounds of `initTileMap` are the dimensions 1200 and 675 of the
array `tileMap`, and after `initTileMap` every cell `(i, j)` with `i < 1200` and
`j < 675` holds 0.5, whatever the tile map held before. -/
theorem initTileMap_covers (t : TileMap) (i j : Nat) (hi : i < 1200) (hj : j < 675) :
    numTilesX = 1200 ∧ numTilesY = 675 ∧
    initTileMap numTilesX numTilesY t i j = fin (1 / 2) := by
  have hx : numTilesX = 1200 := by decide
  have hy : numTilesY = 675 := by decide
  refine ⟨hx, hy, ?_⟩
  rw [initTileMap_apply, hx, hy, if_pos ⟨hi, hj⟩]

/-- The last cell of the array after a reset of the tile map of infinities. -/
theorem initTileMap_covers_witness :
    initTileMap numTilesX numTilesY (fun _ _ => posInf) 1199 674 = fin (1 / 2) :=
  (initTileMap_covers (fun _ _ => posInf) 1199 674 (by decide) (by decide)).2.2

/-! ## Passes and normalisation read the cells of the tile map only -/

theorem setTilesRandomly_perlin_congr (NewPerlin : Float64 → Float64 → Int → Int → Perlin)
    (nx ny : Nat) (Int63 : Int) (willModify : Bool) (t u : TileMap)
    (h : ∀ i j, i < nx → j < ny → t i j = u i j) (i j : Nat) (hi : i < nx) (hj : j < ny) :
    setTilesRandomly_perlin NewPerlin nx ny Int63 willModify t i j =
      setTilesRandomly_perlin NewPerlin nx ny Int63 willModify u i j := by
  rw [setTilesRandomly_perlin_apply _ _ _ _ _ _ _ _ hi hj,
    setTilesRandomly_perlin_apply _ _ _ _ _ _ _ _ hi hj, h i j hi hj]

theorem perlinPasses_congr (NewPerlin : Float64 → Float64 → Int → Int → Perlin)
    (nx ny : Nat) (seeds : List Int) (t u : TileMap)
    (h : ∀ i j, i < nx → j < ny → t i j = u i j) (i j : Nat) (hi : i < nx) (hj : j < ny) :
    perlinPasses NewPerlin nx ny seeds t i j = perlinPasses NewPerlin nx ny seeds u i j := by
  induction seeds generalizing t u i j with
  | nil => exact h i j hi hj
  | cons s seeds ih =>
    exact ih _ _ (fun a b ha hb => setTilesRandomly_perlin_congr _ _ _ _ _ _ _ h a b ha hb)
      i j hi hj

theorem normalizeScan_congr (nx ny : Nat) (t u : TileMap)
    (h : ∀ i j, i < nx → j < ny → t i j = u i j) :
    normalizeScan nx ny t = normalizeScan nx ny u := by
  unfold normalizeScan
  rw [forCells_eq_foldl, forCells_eq_foldl]
  apply List.foldl_ext
  rintro mm ⟨i, j⟩ hc
  rw [mem_cells] at hc
  simp only [h i j hc.1 hc.2]

theorem normalizeTileMap_congr (nx ny : Nat) (t u : TileMap)
    (h : ∀ i j, i < nx → j < ny → t i j = u i j) (i j : Nat) (hi : i < nx) (hj : j < ny) :
    normalizeTileMap nx ny t i j = normalizeTileMap nx ny u i j := by
  rw [normalizeTileMap_apply, normalizeTileMap_apply, if_pos ⟨hi, hj⟩, if_pos ⟨hi, hj⟩,
    normalizeScan_congr nx ny t u h, h i j hi hj]

theorem mapGenerationRoutine_eq_perlinPasses
    (NewPerlin : Float64 → Float64 → Int → Int → Perlin) (nx ny : Nat) (Int63 : Nat → Int)
    (willReset : Bool) (t : TileMap) :
    mapGenerationRoutine NewPerlin nx ny Int63 willReset t =
      normalizeTileMap nx ny (perlinPasses NewPerlin nx ny [Int63 0, Int63 1, Int63 2, Int63 3]
        (if willReset then initTileMap nx ny t else t)) := rfl

/-- C12: with reset, the result of `mapGenerationRoutine` depends on the seed
sequence alone: for the same noise constructor and the same four seed draws,
two prior tile maps give final tile maps that agree in every cell. -/
theorem mapGenerationRoutine_reset_deterministic
    (NewPerlin : Float64 → Float64 → Int → Int → Perlin) (nx ny : Nat) (Int63 : Nat → Int)
    (g g' : TileMap) (i j : Nat) (hi : i < nx) (hj : j < ny) :
    mapGenerationRoutine NewPerlin nx ny Int63 true g i j =
      mapGenerationRoutine NewPerlin nx ny Int63 true g' i j := by
  rw [mapGenerationRoutine_eq_perlinPasses, mapGenerationRoutine_eq_perlinPasses]
  apply normalizeTileMap_congr _ _ _ _ _ i j hi hj
  intro a b ha hb
  apply perlinPasses_congr _ _ _ _ _ _ _ a b ha hb
  intro c d hc hd
  simp only [if_true, initTileMap_apply, if_pos (And.intro hc hd)]

/-- Two runs with reset on a one-by-two tile map, from the prior tile maps of
zeros and of ones. -/
theorem mapGenerationRoutine_reset_deterministic_witness :
    mapGenerationRoutine (fun _ _ _ s u v => add (fin s) (mul u v)) 1 2 (fun i => i)
        true (fun _ _ => fin 0) 0 1 =
      mapGenerationRoutine (fun _ _ _ s u v => add (fin s) (mul u v)) 1 2 (fun i => i)
        true (fun _ _ => fin 1) 0 1 :=
  mapGenerationRoutine_reset_deterministic _ 1 2 _ _ _ 0 1 (by decide) (by decide)

/-! ## The coherent-noise blend stays above 0.25 -/

theorem clamp_of_ne_nan (v : Float64) (h : v ≠ nan) :
    ∃ r : ℚ, math.Min (math.Max v (fin 0)) (fin 1) = fin r ∧ 0 ≤ r ∧ r ≤ 1 := by
  cases v with
  | fin q =>
    refine ⟨min (max q 0) 1, clamp_fin q, le_min (le_max_right _ _) (by norm_num),
      min_le_right _ _⟩
  | posInf => exact ⟨1, by simp [math.Min, math.Max, lt], by norm_num, le_refl _⟩
  | negInf => exact ⟨0, by simp [math.Min, math.Max, lt], le_refl _, by norm_num⟩
  | nan => exact absurd rfl h

/-- One coherent-noise blend in a cell with finite prior value `old` in
`[0.25, 1]`, for a sample that is not `NaN`. -/
theorem setTilesRandomly_perlin_bounds (NewPerlin : Float64 → Float64 → Int → Int → Perlin)
    (nx ny : Nat) (Int63 : Int) (t : TileMap) (x y : Nat) (old : ℚ)
    (hnan : ∀ u v, NewPerlin alpha beta n Int63 u v ≠ nan)
    (hx : x < nx) (hy : y < ny) (hold : t x y = fin old) (h1 : 1 / 4 ≤ old) (h2 : old ≤ 1) :
    ∃ r : ℚ, 0 ≤ r ∧ r ≤ 1 ∧
      setTilesRandomly_perlin NewPerlin nx ny Int63 true t x y
        = fin ((old + min (max (old * r + 1 / 4) 0) 1) / 2) ∧
      1 / 4 ≤ (old + min (max (old * r + 1 / 4) 0) 1) / 2 ∧
      (old + min (max (old * r + 1 / 4) 0) 1) / 2 ≤ 1 := by
  obtain ⟨r, hr, r0, r1⟩ := clamp_of_ne_nan _ (hnan (div (ofInt x) (ofInt nx))
    (div (ofInt y) (ofInt ny)))
  refine ⟨r, r0, r1, ?_, ?_, ?_⟩
  · rw [setTilesRandomly_perlin_apply _ _ _ _ _ _ _ _ hx hy, if_pos rfl, hr, hold, mul_fin,
      add_fin, clamp_fin, add_fin, div_fin _ _ (by norm_num)]
  · have hm : 0 ≤ old * r := mul_nonneg (by linarith) r0
    have : 1 / 4 ≤ min (max (old * r + 1 / 4) 0) 1 :=
      le_min (le_trans (by linarith) (le_max_left _ _)) (by norm_num)
    linarith
  · have : min (max (old * r + 1 / 4) 0) 1 ≤ 1 := min_le_right _ _
    linarith

theorem perlinPasses_bounds (NewPerlin : Float64 → Float64 → Int → Int → Perlin)
    (nx ny : Nat) (seeds : List Int) (t : TileMap)
    (hnan : ∀ s u v, NewPerlin alpha beta n s u v ≠ nan)
    (ht : ∀ x y, x < nx → y < ny → ∃ q : ℚ, t x y = fin q ∧ 1 / 4 ≤ q ∧ q ≤ 1)
    (x y : Nat) (hx : x < nx) (hy : y < ny) :
    ∃ q : ℚ, perlinPasses NewPerlin nx ny seeds t x y = fin q ∧ 1 / 4 ≤ q ∧ q ≤ 1 := by
  induction seeds generalizing t x y with
  | nil => exact ht x y hx hy
  | cons s seeds ih =>
    apply ih (setTilesRandomly_perlin NewPerlin nx ny s true t) _ x y hx hy
    intro a b ha hb
    obtain ⟨q, hq, q1, q2⟩ := ht a b ha hb
    obtain ⟨r, _, _, e, b1, b2⟩ :=
      setTilesRandomly_perlin_bounds NewPerlin nx ny s t a b q (hnan s) ha hb hq q1 q2
    exact ⟨_, e, b1, b2⟩

/-- C14: a coherent-noise blend of a cell with prior value `old` in `[0.25, 1]`
and clamped sample `r` in `[0, 1]` writes `(old + clamp(old * r + 0.25, 0, 1)) / 2`,
which lies in `[0.25, 1]`; so from the reset tile map, after the passes of any
list of seeds, whatever the noise fields (no sample being `NaN`), every cell
lies in `[0.25, 1]`. -/
theorem perlin_blend_no_collapse (NewPerlin : Float64 → Float64 → Int → Int → Perlin)
    (nx ny : Nat) (hnan : ∀ s u v, NewPerlin alpha beta n s u v ≠ nan) :
    (∀ (Int63 : Int) (t : TileMap) (x y : Nat) (old : ℚ), x < nx → y < ny →
      t x y = fin old → 1 / 4 ≤ old → old ≤ 1 →
      ∃ r : ℚ, 0 ≤ r ∧ r ≤ 1 ∧
        setTilesRandomly_perlin NewPerlin nx ny Int63 true t x y
          = fin ((old + min (max (old * r + 1 / 4) 0) 1) / 2) ∧
        1 / 4 ≤ (old + min (max (old * r + 1 / 4) 0) 1) / 2 ∧
        (old + min (max (old * r + 1 / 4) 0) 1) / 2 ≤ 1) ∧
    (∀ (seeds : List Int) (t : TileMap) (x y : Nat), x < nx → y < ny →
      ∃ q : ℚ, perlinPasses NewPerlin nx ny seeds (initTileMap nx ny t) x y = fin q ∧
        1 / 4 ≤ q ∧ q ≤ 1) := by
  constructor
  · intro s t x y old hx hy hold h1 h2
    exact setTilesRandomly_perlin_bounds NewPerlin nx ny s t x y old (hnan s) hx hy hold h1 h2
  · intro seeds t x y hx hy
    apply perlinPasses_bounds NewPerlin nx ny seeds _ hnan _ x y hx hy
    intro a b ha hb
    exact ⟨1 / 2, by rw [initTileMap_apply, if_pos ⟨ha, hb⟩], by norm_num, by norm_num⟩

/-- Three passes on a one-cell tile map whose noise is the seed itself. -/
theorem perlin_blend_no_collapse_witness :
    ∃ q : ℚ, perlinPasses (fun _ _ _ s _ _ => fin s) 1 1 [-3, 0, 7]
        (initTileMap 1 1 (fun _ _ => nan)) 0 0 = fin q ∧ 1 / 4 ≤ q ∧ q ≤ 1 :=
  (perlin_blend_no_collapse (fun _ _ _ s _ _ => fin s) 1 1
    (fun _ _ _ h => Float64.noConfusion h)).2 [-3, 0, 7] (fun _ _ => nan) 0 0
    (by decide) (by decide)

/-! ## Normalisation of tile maps that are not flat -/

/-- The value of a cell lies between the least and the greatest value. -/
theorem toRat_mem_Icc {nx ny : Nat} {t : TileMap} {m M : ℚ}
    (hmin : IsMinOver nx ny t m) (hmax : IsMaxOver nx ny t M)
    {i j : Nat} (hi : i < nx) (hj : j < ny) : m ≤ (t i j).toRat ∧ (t i j).toRat ≤ M := by
  obtain ⟨q, hq, hq1⟩ := hmin.2 i j hi hj
  obtain ⟨q', hq', hq2⟩ := hmax.2 i j hi hj
  have : q' = q := by rw [hq] at hq'; injection hq' with h; exact h.symm
  subst this
  simp only [hq, Float64.toRat]
  exact ⟨hq1, hq2⟩

/-! ## Normalisation on tile maps with cells in `[0, 1]` -/

/-- On a non-degenerate tile map with least value `m ≤ 1` and greatest value
`0 ≤ M` the scan finds `m` and `M`, every cell `q` becomes `(q - m) / (M - m)`,
and the least and greatest cells of the result are 0 and 1. -/
theorem normalizeTileMap_spec {nx ny : Nat} {t : TileMap} {m M : ℚ}
    (hmin : IsMinOver nx ny t m) (hmax : IsMaxOver nx ny t M) (hlt : m < M)
    (hm : m ≤ 1) (hM : 0 ≤ M) :
    normalizeScan nx ny t = (fin m, fin M) ∧
    (∀ i j, i < nx → j < ny →
      normalizeTileMap nx ny t i j = fin (((t i j).toRat - m) / (M - m))) ∧
    IsMinOver nx ny (normalizeTileMap nx ny t) 0 ∧
    IsMaxOver nx ny (normalizeTileMap nx ny t) 1 := by
  have hscan : normalizeScan nx ny t = (fin m, fin M) := by
    rw [normalizeScan_eq hmin hmax, min_eq_right hm, max_eq_right hM]
  have key : ∀ i j, i < nx → j < ny →
      normalizeTileMap nx ny t i j = fin (((t i j).toRat - m) / (M - m)) := by
    intro i j hi hj
    have h := (normalizeTileMap_apply_fin hmin hmax hlt hi hj).2
    rwa [min_eq_right hm, max_eq_right hM] at h
  have hd : 0 < M - m := by linarith
  obtain ⟨i, j, hi, hj, hmc⟩ := hmin.1
  obtain ⟨k, l, hk, hl, hMc⟩ := hmax.1
  refine ⟨hscan, key, ⟨⟨i, j, hi, hj, ?_⟩, ?_⟩, ⟨⟨k, l, hk, hl, ?_⟩, ?_⟩⟩
  · rw [key i j hi hj, hmc]; simp [Float64.toRat]
  · intro a b ha hb
    refine ⟨_, key a b ha hb, ?_⟩
    have := (toRat_mem_Icc hmin hmax ha hb).1
    exact div_nonneg (by linarith) hd.le
  · rw [key k l hk hl, hMc]; simp only [Float64.toRat]; rw [div_self hd.ne']
  · intro a b ha hb
    refine ⟨_, key a b ha hb, ?_⟩
    have := (toRat_mem_Icc hmin hmax ha hb).2
    rw [div_le_one hd]; linarith

/-- C17: on a tile map whose cells lie in `[0, 1]` and are not all equal (least
value `m`, greatest value `M`), the scan of `normalizeTileMap` ends with the
true minimum and maximum in spite of its start values 1.0 and 0.0, every cell
`c` becomes `(c - m) / (M - m)`, the result has least cell 0 and greatest cell
1, and a second `normalizeTileMap` leaves the result unchanged. -/
theorem normalizeTileMap_idempotent (nx ny : Nat) (t : TileMap) (m M : ℚ)
    (hmin : IsMinOver nx ny t m) (hmax : IsMaxOver nx ny t M) (hlt : m < M)
    (h0 : 0 ≤ m) (h1 : M ≤ 1) :
    normalizeScan nx ny t = (fin m, fin M) ∧
    (∀ i j, i < nx → j < ny →
      normalizeTileMap nx ny t i j = fin (((t i j).toRat - m) / (M - m))) ∧
    IsMinOver nx ny (normalizeTileMap nx ny t) 0 ∧
    IsMaxOver nx ny (normalizeTileMap nx ny t) 1 ∧
    normalizeTileMap nx ny (normalizeTileMap nx ny t) = normalizeTileMap nx ny t := by
  obtain ⟨hscan, key, hmin', hmax'⟩ :=
    normalizeTileMap_spec hmin hmax hlt (by linarith) (by linarith)
  refine ⟨hscan, key, hmin', hmax', ?_⟩
  funext a b
  by_cases hab : a < nx ∧ b < ny
  · have key' :=
      (normalizeTileMap_spec hmin' hmax' (by norm_num) (by norm_num) (by norm_num)).2.1
    rw [key' a b hab.1 hab.2, sub_zero, sub_zero, div_one]
    exact (hmin'.cell_eq hab.1 hab.2).symm
  · rw [normalizeTileMap_apply nx ny (normalizeTileMap nx ny t), if_neg hab]

/-- Two normalisations of the one-by-two tile map with the cells 0.25 and 0.75. -/
theorem normalizeTileMap_idempotent_witness :
    normalizeTileMap 1 2
        (normalizeTileMap 1 2 (fun _ j => if j = 0 then fin (1 / 4) else fin (3 / 4))) =
      normalizeTileMap 1 2 (fun _ j => if j = 0 then fin (1 / 4) else fin (3 / 4)) :=
  (normalizeTileMap_idempotent 1 2 _ (1 / 4) (3 / 4) quarters_min_max.1 quarters_min_max.2
    (by norm_num) (by norm_num) (by norm_num)).2.2.2.2

/-! ## The uniform blend shrinks the cells -/

theorem maxFloat64_pos : 0 < maxFloat64 := by
  unfold maxFloat64
  positivity

/-- With the divisor `maxValue - minValue` at most `maxFloat64`, the divisor and
the numerator of every cell are non-negative and within the `float64` range. -/
theorem normalizeTileMap_in_range {nx ny : Nat} {t : TileMap} {m M : ℚ}
    (hmin : IsMinOver nx ny t m) (hmax : IsMaxOver nx ny t M)
    (hrange : max 0 M - min 1 m ≤ maxFloat64) {i j : Nat} (hi : i < nx) (hj : j < ny) :
    0 ≤ (t i j).toRat - min 1 m ∧
    (t i j).toRat - min 1 m ≤ max 0 M - min 1 m ∧
    InFloat64Range ((t i j).toRat - min 1 m) ∧
    InFloat64Range (max 0 M - min 1 m) := by
  have b := toRat_mem_Icc hmin hmax hi hj
  have h1 : min 1 m ≤ m := min_le_right _ _
  have h2 : M ≤ max 0 M := le_max_right _ _
  have hp := maxFloat64_pos
  refine ⟨by linarith [b.1], by linarith [b.2], ⟨by linarith [b.1], by linarith [b.2]⟩,
    ⟨by linarith [b.1, b.2], hrange⟩⟩

/-- C2, amended: on a tile map of finite values whose least value `m` is below its
greatest value `M`, with `m ≤ 1`, `0 ≤ M` and `M - m` at most `maxFloat64` (as
when the cells lie in `[0, 1]`), after `normalizeTileMap` the least cell is 0
and the greatest cell is 1; the divisor `M - m` and every numerator `c - m` are
within the `float64` range. -/
theorem normalizeTileMap_min_max (nx ny : Nat) (t : TileMap) (m M : ℚ)
    (hmin : IsMinOver nx ny t m) (hmax : IsMaxOver nx ny t M) (hlt : m < M)
    (hm : m ≤ 1) (hM : 0 ≤ M) (hrange : M - m ≤ maxFloat64) :
    IsMinOver nx ny (normalizeTileMap nx ny t) 0 ∧
    IsMaxOver nx ny (normalizeTileMap nx ny t) 1 ∧
    InFloat64Range (M - m) ∧
    ∀ i j, i < nx → j < ny →
      0 ≤ (t i j).toRat - m ∧ (t i j).toRat - m ≤ M - m ∧
        InFloat64Range ((t i j).toRat - m) := by
  obtain ⟨_, _, h0, h1⟩ := normalizeTileMap_spec hmin hmax hlt hm hM
  have hr : max 0 M - min 1 m ≤ maxFloat64 := by
    rw [min_eq_right hm, max_eq_right hM]; exact hrange
  refine ⟨h0, h1, ⟨by linarith [maxFloat64_pos], hrange⟩, ?_⟩
  intro i j hi hj
  have h := normalizeTileMap_in_range hmin hmax hr hi hj
  rw [min_eq_right hm, max_eq_right hM] at h
  exact ⟨h.1, h.2.1, h.2.2.1⟩

/-- Normalisation of the one-by-two tile map with the cells 0.25 and 0.75. -/
theorem normalizeTileMap_min_max_witness :
    IsMinOver 1 2
      (normalizeTileMap 1 2 (fun _ j => if j = 0 then fin (1 / 4) else fin (3 / 4))) 0 ∧
    IsMaxOver 1 2
      (normalizeTileMap 1 2 (fun _ j => if j = 0 then fin (1 / 4) else fin (3 / 4))) 1 :=
  have h := normalizeTileMap_min_max 1 2 _ (1 / 4) (3 / 4) quarters_min_max.1
    quarters_min_max.2 (by norm_num) (by norm_num) (by norm_num)
    (by unfold maxFloat64; norm_num)
  ⟨h.1, h.2.1⟩

/-! ## The order of the cells under normalisation -/

/-- C16, on the code: the classifier does not follow the table of the comment
above the colours.  At 0.19 the table says deep water and the code returns
shallow water; at 0.35 shallow water against sand; at 0.45 sand against grass;
at 0.6 grass against forest; at 0.75 forest against dirt, a colour the table
does not have; at 0.92 high mountains against mountains. -/
theorem getColorFromSwitch_not_comment_table :
    (getColorFromSwitch (fin (19 / 100)) = shallowWater ∧
      getColorFromSwitch (fin (19 / 100)) ≠ deepWater) ∧
    (getColorFromSwitch (fin (35 / 100)) = sand ∧
      getColorFromSwitch (fin (35 / 100)) ≠ shallowWater) ∧
    (getColorFromSwitch (fin (45 / 100)) = grass ∧
      getColorFromSwitch (fin (45 / 100)) ≠ sand) ∧
    (getColorFromSwitch (fin (60 / 100)) = forest ∧
      getColorFromSwitch (fin (60 / 100)) ≠ grass) ∧
    (getColorFromSwitch (fin (75 / 100)) = dirt ∧
      getColorFromSwitch (fin (75 / 100)) ≠ forest) ∧
    (getColorFromSwitch (fin (92 / 100)) = mountains ∧
      getColorFromSwitch (fin (92 / 100)) ≠ highMountains) := by
  have h1 := (getColorFromSwitch_shallowWater_iff (19 / 100)).2 (by norm_num)
  have h2 := (getColorFromSwitch_sand_iff (35 / 100)).2 (by norm_num)
  have h3 := (getColorFromSwitch_grass_iff (45 / 100)).2 (by norm_num)
  have h4 := (getColorFromSwitch_forest_iff (60 / 100)).2 (by norm_num)
  have h5 := (getColorFromSwitch_dirt_iff (75 / 100)).2 (by norm_num)
  have h6 := (getColorFromSwitch_mountains_iff (92 / 100)).2 (by norm_num)
  refine ⟨⟨h1, ?_⟩, ⟨h2, ?_⟩, ⟨h3, ?_⟩, ⟨h4, ?_⟩, ⟨h5, ?_⟩, ⟨h6, ?_⟩⟩
  · rw [h1]; decide
  · rw [h2]; decide
  · rw [h3]; decide
  · rw [h4]; decide
  · rw [h5]; decide
  · rw [h6]; decide

end RlTerrain
